import Mathlib

/-!
Shallow embedding of the warp-reader RSVP speed-reading engine.

Sources embedded:
* `src/src/utils/tokenizer.js` — `cleanAndTokenize`, `getPivotIndex`
* `src/src/hooks/useReader.js` — the playback state machine (`play`, `pause`,
  `togglePlayPause`, `restart`, `back10`, `loadText`, `clearText`,
  `setLoadedFileName`, `markTextModified`, `setWpm`, and the scheduler tick
  `runLoop`)
* `src/unnamed/part_001` (App component) — `handleFileSelect`

Strings are modelled as `List Char`; `null`/`undefined` text input is
modelled with `Option`. The JS number used for the current index is modelled
as `Int` (it can in principle go negative in JS), word counts as `Nat` with
explicit coercion.
-/

namespace WarpReader

/-- Character class of the JS regex `\s` (and of `String.prototype.trim`):
space, tab, line feed, vertical tab, form feed, carriage return, NBSP,
Ogham space mark, the U+2000–U+200A range, line/paragraph separator,
narrow NBSP, medium mathematical space, ideographic space, and BOM. -/
def isJsWhitespace (c : Char) : Bool :=
  decide (c.toNat = 0x20) || decide (c.toNat = 0x09) || decide (c.toNat = 0x0A) ||
  decide (c.toNat = 0x0B) || decide (c.toNat = 0x0C) || decide (c.toNat = 0x0D) ||
  decide (c.toNat = 0xA0) || decide (c.toNat = 0x1680) ||
  (decide (0x2000 ≤ c.toNat) && decide (c.toNat ≤ 0x200A)) ||
  decide (c.toNat = 0x2028) || decide (c.toNat = 0x2029) ||
  decide (c.toNat = 0x202F) || decide (c.toNat = 0x205F) ||
  decide (c.toNat = 0x3000) || decide (c.toNat = 0xFEFF)

/-- Character class of the regex `[\x00-\x1F\x7F-\x9F]` used by
`cleanAndTokenize` step 1 to strip non-printable control characters. -/
def isControlChar (c : Char) : Bool :=
  decide (c.toNat ≤ 0x1F) || (decide (0x7F ≤ c.toNat) && decide (c.toNat ≤ 0x9F))

/-- JS `String.prototype.trim`: drop leading and trailing whitespace. -/
def jsTrim (l : List Char) : List Char :=
  ((l.dropWhile isJsWhitespace).reverse.dropWhile isJsWhitespace).reverse

/-- Does the list start with a whitespace character? Used to detect whether
a whitespace character continues the current separator run. -/
def startsWithWs : List Char → Bool
  | c :: _ => isJsWhitespace c
  | [] => false

/-- JS `str.split(/\s+/)`: each maximal run of whitespace characters is one
separator; an empty string splits to `[""]`; leading (resp. trailing)
whitespace contributes a leading (resp. trailing) empty piece. A whitespace
character that is followed by more whitespace merges into the same
separator; one that ends a run closes the current piece; a non-whitespace
character is prepended to the first piece of the split of the rest. -/
def splitWs : List Char → List (List Char)
  | [] => [[]]
  | c :: cs =>
    if isJsWhitespace c then
      if startsWithWs cs then splitWs cs else [] :: splitWs cs
    else
      (c :: (splitWs cs).headI) :: (splitWs cs).tail

/-- `cleanAndTokenize` from `src/src/utils/tokenizer.js`:
`if (!raw) return []` (null/undefined/empty string), then remove control
characters, trim, split on whitespace runs, and filter out empty strings. -/
def cleanAndTokenize : Option (List Char) → List (List Char)
  | none => []
  | some raw =>
    if raw = [] then []
    else
      let text := raw.filter (fun c => !isControlChar c)
      let tokens := splitWs (jsTrim text)
      tokens.filter (fun t => t.length > 0)

/-- `getPivotIndex` from `src/src/utils/tokenizer.js`: pivot letter index as
a function of word length only. -/
def getPivotIndex (word : List Char) : Nat :=
  let length := word.length
  if length = 1 then 0
  else if length ≤ 5 then 1
  else if length ≤ 9 then 2
  else if length ≤ 13 then 3
  else 4

/-- `DEFAULT_WORDS` from `src/src/hooks/useReader.js`: the placeholder
sequence shown before any user text is loaded. -/
def DEFAULT_WORDS : List (List Char) :=
  ["welcome".data, "to".data, "warp.".data, "velocity".data, "reading".data,
   "system.".data, "ready?".data]

/-- The reactive state cells of the `useReader` hook
(`src/src/hooks/useReader.js`): word sequence, current index, playing /
ready / finished flags, words-per-minute rate, theme and loaded file name.
The JS index is a number that transitions keep integral, so it is modelled
as `Int`. -/
structure ReaderState where
  words : List (List Char)
  currentIndex : Int
  isPlaying : Bool
  isReady : Bool
  isFinished : Bool
  wpm : Int
  theme : List Char
  fileName : List Char
deriving Repr, DecidableEq

/-- The initial values of the `useState` cells in `useReader`. -/
def initialState : ReaderState :=
  { words := DEFAULT_WORDS, currentIndex := 0, isPlaying := false,
    isReady := false, isFinished := false, wpm := 300,
    theme := "default".data, fileName := [] }

/-- `play` from `useReader.js`: if at (or beyond) the last index, reset the
index to 0 and clear the finished flag, then set playing. The wake-lock
request is an external best-effort side effect with no state-cell impact. -/
def play (s : ReaderState) : ReaderState :=
  let s' :=
    if s.currentIndex ≥ (s.words.length : Int) - 1 then
      { s with currentIndex := 0, isFinished := false }
    else s
  { s' with isPlaying := true }

/-- `pause` from `useReader.js`: clear the playing flag (and cancel the
pending timeout / release the wake lock, which are external effects). -/
def pause (s : ReaderState) : ReaderState :=
  { s with isPlaying := false }

/-- `togglePlayPause` from `useReader.js`. -/
def togglePlayPause (s : ReaderState) : ReaderState :=
  if s.isPlaying then pause s else play s

/-- `restart` from `useReader.js`: index back to 0, clear finished, pause. -/
def restart (s : ReaderState) : ReaderState :=
  pause { s with currentIndex := 0, isFinished := false }

/-- `back10` from `useReader.js`: `Math.max(0, currentIndex - 10)`, clear
finished, pause. -/
def back10 (s : ReaderState) : ReaderState :=
  pause { s with currentIndex := max 0 (s.currentIndex - 10), isFinished := false }

/-- The fallback word sequence substituted by `loadText` when tokenization
produces nothing. -/
def FALLBACK_WORDS : List (List Char) := ["ready".data, "to".data, "warp".data]

/-- `loadText` from `useReader.js`: tokenize; on an empty result install the
fallback sequence, otherwise install the tokens; reset index, clear
finished, set ready, pause. -/
def loadText (text : Option (List Char)) (s : ReaderState) : ReaderState :=
  let tokenized := cleanAndTokenize text
  let s' :=
    if tokenized.length = 0 then { s with words := FALLBACK_WORDS }
    else { s with words := tokenized }
  pause { s' with currentIndex := 0, isFinished := false, isReady := true }

/-- `clearText` from `useReader.js`: back to the placeholder sequence,
index 0, not ready, not finished, clear the file name, pause. -/
def clearText (s : ReaderState) : ReaderState :=
  pause { s with words := DEFAULT_WORDS, currentIndex := 0, isReady := false,
                 isFinished := false, fileName := [] }

/-- `setLoadedFileName` from `useReader.js`: store the lower-cased name. -/
def setLoadedFileName (name : List Char) (s : ReaderState) : ReaderState :=
  { s with fileName := name.map Char.toLower }

/-- `markTextModified` from `useReader.js`: editing the text clears ready. -/
def markTextModified (s : ReaderState) : ReaderState :=
  { s with isReady := false }

/-- The `setWpm` state setter exposed by `useReader.js`. -/
def setWpm (w : Int) (s : ReaderState) : ReaderState :=
  { s with wpm := w }

/-- One scheduler tick: the `runLoop` body of the playback effect in
`useReader.js`. The effect returns early when not playing, so a tick only
acts in the playing state: advance the index; on reaching the end, clamp to
the last index, stop playing and set finished. -/
def tick (s : ReaderState) : ReaderState :=
  if s.isPlaying then
    let nextIndex := s.currentIndex + 1
    if nextIndex ≥ (s.words.length : Int) then
      { s with isPlaying := false, isFinished := true,
               currentIndex := (s.words.length : Int) - 1 }
    else
      { s with currentIndex := nextIndex }
  else s

/-- The App component state relevant to file selection
(`src/unnamed/part_001`): the reader hook state plus the textarea content. -/
structure AppState where
  reader : ReaderState
  textContent : List Char
deriving Repr, DecidableEq

/-- `handleFileSelect` from `src/unnamed/part_001`: `processFile` is the
external text extractor (PDF/DOCX/plain collaborator), so its outcome is
passed in as an `Except`. On success the extracted text is stored, the
lower-cased file name recorded, and the text loaded; on failure the catch
block only logs and the state is left untouched. -/
def handleFileSelect (fname : List Char) (extraction : Except (List Char) (List Char))
    (s : AppState) : AppState :=
  match extraction with
  | Except.ok text =>
      { textContent := text,
        reader := loadText (some text) (setLoadedFileName fname s.reader) }
  | Except.error _ => s

/-- The state-machine invariant from the spec (§3): whenever the word
sequence is non-empty, the position is a valid index, and a Finished status
means the position sits on the last word. -/
def Inv (s : ReaderState) : Prop :=
  s.words ≠ [] →
    0 ≤ s.currentIndex ∧ s.currentIndex < (s.words.length : Int) ∧
    (s.isFinished = true → s.currentIndex = (s.words.length : Int) - 1)

/-- Joining a token list with single spaces, as in the spec's idempotence
property ("the joined-by-single-space output"). -/
def joinSpace : List (List Char) → List Char
  | [] => []
  | [t] => t
  | t :: t2 :: ts => t ++ ' ' :: joinSpace (t2 :: ts)

/-- A concrete state that has reached the end of its sequence (position at
the last index of the seven default words, Finished set). -/
def finishedSt : ReaderState :=
  { initialState with currentIndex := 6, isFinished := true }

/-- A concrete playing state holding a one-word sequence at position 0. -/
def oneWordPlaying : ReaderState :=
  { initialState with words := ["hi".data], currentIndex := 0, isPlaying := true }

/-- C5: for every non-empty word, `getPivotIndex` is determined by word
length alone by the fixed table (1 → 0, 2–5 → 1, 6–9 → 2, 10–13 → 3,
≥14 → 4), the spec's five sample words hit the claimed values, and the
result is always at most 4 (hence in [0,4]). -/
theorem getPivotIndex_table (w : List Char) (h : w ≠ []) :
    (w.length = 1 → getPivotIndex w = 0) ∧
    (2 ≤ w.length → w.length ≤ 5 → getPivotIndex w = 1) ∧
    (6 ≤ w.length → w.length ≤ 9 → getPivotIndex w = 2) ∧
    (10 ≤ w.length → w.length ≤ 13 → getPivotIndex w = 3) ∧
    (14 ≤ w.length → getPivotIndex w = 4) ∧
    getPivotIndex w ≤ 4 ∧
    getPivotIndex "a".data = 0 ∧
    getPivotIndex "warp".data = 1 ∧
    getPivotIndex "velocity".data = 2 ∧
    getPivotIndex "information".data = 3 ∧
    getPivotIndex "internationalization".data = 4 := by
  refine ⟨?_, ?_, ?_, ?_, ?_, ?_, by decide, by decide, by decide, by decide, by decide⟩ <;>
    · simp only [getPivotIndex]
      split_ifs <;> omega

/-- C5 witness: the table instantiated at the concrete word "warp". -/
theorem getPivotIndex_table_witness :
    getPivotIndex "warp".data = 1 ∧ getPivotIndex "warp".data ≤ 4 :=
  ⟨(getPivotIndex_table "warp".data (by decide)).2.1 (by decide) (by decide),
   (getPivotIndex_table "warp".data (by decide)).2.2.2.2.2.1⟩

/-- C10: `getPivotIndex` is total: on the empty string it returns 1 (the
same value as for lengths 2 through 5), and every call returns a value that
is at most 4 — i.e. in {0,1,2,3,4} — with no error branch. -/
theorem getPivotIndex_total :
    getPivotIndex [] = 1 ∧
    getPivotIndex [] = getPivotIndex "ab".data ∧
    ∀ w : List Char, getPivotIndex w ≤ 4 := by
  refine ⟨by decide, by decide, fun w => ?_⟩
  simp only [getPivotIndex]
  split_ifs <;> omega

/-- C8: `back10` sets the position to `max 0 (position - 10)`, clears the
finished flag and always ends not playing, whatever the prior status; in
particular from position 3 it lands on 0. -/
theorem back10_spec (s : ReaderState) :
    back10 s = { s with currentIndex := max 0 (s.currentIndex - 10),
                        isFinished := false, isPlaying := false } ∧
    (back10 { initialState with currentIndex := 3 }).currentIndex = 0 :=
  ⟨rfl, by decide⟩

/-- C9: when text extraction fails, `handleFileSelect` leaves the whole
session state unchanged — word sequence, position, status flags, rate,
file name and textarea content are all as before (atomicity on error). -/
theorem handleFileSelect_error_spec (fname err : List Char) (s : AppState) :
    handleFileSelect fname (Except.error err) s = s ∧
    (handleFileSelect fname (Except.error err) s).reader.words = s.reader.words ∧
    (handleFileSelect fname (Except.error err) s).reader.currentIndex = s.reader.currentIndex ∧
    (handleFileSelect fname (Except.error err) s).reader.isPlaying = s.reader.isPlaying ∧
    (handleFileSelect fname (Except.error err) s).reader.isFinished = s.reader.isFinished ∧
    (handleFileSelect fname (Except.error err) s).reader.isReady = s.reader.isReady ∧
    (handleFileSelect fname (Except.error err) s).reader.wpm = s.reader.wpm ∧
    (handleFileSelect fname (Except.error err) s).reader.fileName = s.reader.fileName ∧
    (handleFileSelect fname (Except.error err) s).textContent = s.textContent :=
  ⟨rfl, rfl, rfl, rfl, rfl, rfl, rfl, rfl, rfl⟩

/-- C3: when the position is at the last index, `play` resets the position
to 0 and clears Finished and sets Playing; when the position is strictly
before the last index, `play` leaves the position (and the finished flag)
unchanged and sets Playing. -/
theorem play_spec (s : ReaderState) :
    (s.currentIndex = (s.words.length : Int) - 1 →
      play s = { s with currentIndex := 0, isFinished := false, isPlaying := true }) ∧
    (s.currentIndex < (s.words.length : Int) - 1 →
      play s = { s with isPlaying := true }) := by
  constructor
  · intro h
    simp only [play]
    rw [if_pos (le_of_eq h.symm)]
  · intro h
    simp only [play]
    rw [if_neg (not_le.mpr h)]

/-- C3 witness: `play` on a Finished state at the last of the seven default
words replays from the start; `play` on the initial state (position 0 of 7
words) keeps the position. -/
theorem play_spec_witness :
    play finishedSt = { finishedSt with currentIndex := 0, isFinished := false,
                                        isPlaying := true } ∧
    play initialState = { initialState with isPlaying := true } :=
  ⟨(play_spec finishedSt).1 (by decide), (play_spec initialState).2 (by decide)⟩

/-- C4: if tokenization of the input is empty (empty, absent or
all-whitespace text), `loadText` installs the fallback sequence
["ready","to","warp"], resets the position, clears Finished, sets ready and
ends not playing; if tokenization is non-empty it installs the tokens with
the same resets. -/
theorem loadText_spec (s : ReaderState) (text : Option (List Char)) :
    (cleanAndTokenize text = [] →
      loadText text s = { s with words := FALLBACK_WORDS, currentIndex := 0,
                                 isFinished := false, isReady := true,
                                 isPlaying := false }) ∧
    (cleanAndTokenize text ≠ [] →
      loadText text s = { s with words := cleanAndTokenize text, currentIndex := 0,
                                 isFinished := false, isReady := true,
                                 isPlaying := false }) := by
  constructor
  · intro h
    simp only [loadText]
    rw [if_pos (by simp [h])]
    rfl
  · intro h
    simp only [loadText]
    rw [if_neg (by simpa using h)]
    rfl

/-- C4 witness: loading absent text installs the fallback; loading
`"  hello   world  "` installs its (non-empty) tokenization. -/
theorem loadText_spec_witness :
    loadText none initialState
      = { initialState with words := FALLBACK_WORDS, currentIndex := 0,
                            isFinished := false, isReady := true, isPlaying := false } ∧
    loadText (some "  hello   world  ".data) initialState
      = { initialState with words := cleanAndTokenize (some "  hello   world  ".data),
                            currentIndex := 0, isFinished := false, isReady := true,
                            isPlaying := false } :=
  ⟨(loadText_spec initialState none).1 rfl,
   (loadText_spec initialState (some "  hello   world  ".data)).2 (by decide)⟩

/-- C1: a scheduler tick in a Playing state advances the position by
exactly 1 while it stays strictly below the word count; once the advanced
position would pass the last index it is clamped to the last index, the
finished flag is set and the playing flag is cleared. -/
theorem tick_spec (s : ReaderState) (h : s.isPlaying = true) :
    (s.currentIndex + 1 < (s.words.length : Int) →
      tick s = { s with currentIndex := s.currentIndex + 1 }) ∧
    ((s.words.length : Int) ≤ s.currentIndex + 1 →
      tick s = { s with isPlaying := false, isFinished := true,
                        currentIndex := (s.words.length : Int) - 1 }) := by
  constructor
  · intro hlt
    simp only [tick]
    rw [if_pos h, if_neg (not_le.mpr hlt)]
  · intro hge
    simp only [tick]
    rw [if_pos h, if_pos hge]

/-- C1 witness: on a one-word sequence at position 0, the first tick goes
straight to Finished at position 0 with playback stopped — it does not
loop. -/
theorem tick_spec_witness :
    tick oneWordPlaying
      = { oneWordPlaying with isPlaying := false, isFinished := true,
                              currentIndex := (oneWordPlaying.words.length : Int) - 1 } ∧
    (tick oneWordPlaying).currentIndex = 0 ∧
    (tick oneWordPlaying).isFinished = true ∧
    (tick oneWordPlaying).isPlaying = false :=
  ⟨(tick_spec oneWordPlaying rfl).2 (by decide), by decide, by decide, by decide⟩

lemma length_pos_int {l : List (List Char)} (h : l ≠ []) : (0 : Int) < (l.length : Int) := by
  exact_mod_cast List.length_pos.mpr h

lemma inv_play (s : ReaderState) (h : Inv s) : Inv (play s) := by
  simp only [play, Inv] at *
  by_cases hc : s.currentIndex ≥ (s.words.length : Int) - 1
  · rw [if_pos hc]
    intro hne
    exact ⟨le_refl 0, length_pos_int hne, by simp⟩
  · rw [if_neg hc]
    intro hne
    exact h hne

lemma inv_pause (s : ReaderState) (h : Inv s) : Inv (pause s) := h

lemma inv_togglePlayPause (s : ReaderState) (h : Inv s) : Inv (togglePlayPause s) := by
  simp only [togglePlayPause]
  by_cases hp : s.isPlaying = true
  · rw [if_pos hp]; exact inv_pause s h
  · rw [if_neg hp]; exact inv_play s h

lemma inv_restart (s : ReaderState) (h : Inv s) : Inv (restart s) := by
  intro hne
  exact ⟨le_refl 0, length_pos_int hne, by simp [restart, pause]⟩

lemma inv_back10 (s : ReaderState) (h : Inv s) : Inv (back10 s) := by
  intro hne
  obtain ⟨h1, h2, _⟩ := h hne
  refine ⟨le_max_left 0 _, ?_, by simp [back10, pause]⟩
  have := length_pos_int (l := s.words) hne
  show max 0 (s.currentIndex - 10) < (s.words.length : Int)
  omega

lemma inv_loadText (t : Option (List Char)) (s : ReaderState) : Inv (loadText t s) := by
  simp only [loadText, Inv]
  by_cases hc : (cleanAndTokenize t).length = 0
  · rw [if_pos hc]
    intro hne
    refine ⟨le_refl 0, ?_, fun hf => absurd hf Bool.false_ne_true⟩
    show (0 : Int) < (FALLBACK_WORDS.length : Int)
    decide
  · rw [if_neg hc]
    intro hne
    refine ⟨le_refl 0, ?_, fun hf => absurd hf Bool.false_ne_true⟩
    show (0 : Int) < ((cleanAndTokenize t).length : Int)
    omega

lemma inv_clearText (s : ReaderState) : Inv (clearText s) := by
  intro hne
  refine ⟨le_refl 0, ?_, fun hf => absurd hf Bool.false_ne_true⟩
  show (0 : Int) < (DEFAULT_WORDS.length : Int)
  decide

lemma inv_setWpm (w : Int) (s : ReaderState) (h : Inv s) : Inv (setWpm w s) := h

lemma inv_markTextModified (s : ReaderState) (h : Inv s) : Inv (markTextModified s) := h

lemma inv_tick (s : ReaderState) (h : Inv s) : Inv (tick s) := by
  simp only [tick]
  by_cases hp : s.isPlaying = true
  · rw [if_pos hp]
    by_cases hge : (s.words.length : Int) ≤ s.currentIndex + 1
    · rw [if_pos hge]
      intro hne
      have hlen := length_pos_int (l := s.words) hne
      refine ⟨?_, ?_, fun _ => rfl⟩
      · show (0 : Int) ≤ (s.words.length : Int) - 1
        omega
      · show (s.words.length : Int) - 1 < (s.words.length : Int)
        omega
    · rw [if_neg hge]
      intro hne
      obtain ⟨h1, h2, h3⟩ := h hne
      refine ⟨?_, ?_, ?_⟩
      · show (0 : Int) ≤ s.currentIndex + 1
        omega
      · show s.currentIndex + 1 < (s.words.length : Int)
        omega
      · intro hf
        have hf' : s.isFinished = true := hf
        have := h3 hf'
        show s.currentIndex + 1 = (s.words.length : Int) - 1
        omega
  · rw [if_neg hp]
    exact h

/-- C2: every transition of the playback state machine — `play`, `pause`,
`togglePlayPause`, `restart`, `back10`, `loadText`, `clearText`, `setWpm`,
`markTextModified`, and the scheduler tick — preserves the invariant that a
non-empty word sequence has `0 ≤ position < length` and that a Finished
status places the position on the last word. -/
theorem transitions_preserve_Inv (s : ReaderState) (h : Inv s) :
    Inv (play s) ∧ Inv (pause s) ∧ Inv (togglePlayPause s) ∧ Inv (restart s) ∧
    Inv (back10 s) ∧ (∀ t, Inv (loadText t s)) ∧ Inv (clearText s) ∧
    (∀ w, Inv (setWpm w s)) ∧ Inv (markTextModified s) ∧ Inv (tick s) :=
  ⟨inv_play s h, inv_pause s h, inv_togglePlayPause s h, inv_restart s h,
   inv_back10 s h, fun t => inv_loadText t s, inv_clearText s,
   fun w => inv_setWpm w s h, inv_markTextModified s h, inv_tick s h⟩

/-- C2 witness: the invariant holds of the initial state and is preserved
there by `play` and by a scheduler tick. -/
theorem transitions_preserve_Inv_witness :
    Inv (play initialState) ∧ Inv (tick initialState) := by
  have h : Inv initialState := by unfold Inv; decide
  exact ⟨(transitions_preserve_Inv initialState h).1,
         (transitions_preserve_Inv initialState h).2.2.2.2.2.2.2.2.2⟩

lemma splitWs_ne_nil (l : List Char) : splitWs l ≠ [] := by
  induction l with
  | nil => simp [splitWs]
  | cons c cs ih =>
    simp only [splitWs]
    split_ifs <;> simp_all

lemma splitWs_mem_props (l : List Char) :
    ∀ t ∈ splitWs l, ∀ c ∈ t, isJsWhitespace c = false ∧ c ∈ l := by
  induction l with
  | nil =>
    intro t ht c hc
    simp [splitWs] at ht
    subst ht
    simp at hc
  | cons a cs ih =>
    intro t ht c hc
    simp only [splitWs] at ht
    by_cases ha : isJsWhitespace a = true
    · rw [if_pos ha] at ht
      by_cases hs : startsWithWs cs = true
      · rw [if_pos hs] at ht
        obtain ⟨h1, h2⟩ := ih t ht c hc
        exact ⟨h1, List.mem_cons_of_mem a h2⟩
      · rw [if_neg hs] at ht
        rcases List.mem_cons.mp ht with h | h
        · subst h
          simp at hc
        · obtain ⟨h1, h2⟩ := ih t h c hc
          exact ⟨h1, List.mem_cons_of_mem a h2⟩
    · rw [if_neg ha] at ht
      obtain ⟨r, rs, hr⟩ := List.exists_cons_of_ne_nil (splitWs_ne_nil cs)
      rw [hr] at ht
      rcases List.mem_cons.mp ht with h | h
      · subst h
        rcases List.mem_cons.mp hc with h' | h'
        · subst h'
          exact ⟨by simpa using ha, List.mem_cons_self c cs⟩
        · have hrmem : r ∈ splitWs cs := by
            rw [hr]
            exact List.mem_cons_self r rs
          obtain ⟨h1, h2⟩ := ih r hrmem c (by simpa using h')
          exact ⟨h1, List.mem_cons_of_mem a h2⟩
      · have htmem : t ∈ splitWs cs := by
          rw [hr]
          exact List.mem_cons_of_mem r (by simpa using h)
        obtain ⟨h1, h2⟩ := ih t htmem c hc
        exact ⟨h1, List.mem_cons_of_mem a h2⟩

lemma splitWs_all_non_ws (l : List Char) (h : ∀ c ∈ l, isJsWhitespace c = false) :
    splitWs l = [l] := by
  induction l with
  | nil => rfl
  | cons a cs ih =>
    have ha : isJsWhitespace a = false := h a (List.mem_cons_self a cs)
    have ih' := ih (fun c hc => h c (List.mem_cons_of_mem a hc))
    simp only [splitWs]
    rw [if_neg (by simp [ha]), ih']
    rfl

lemma splitWs_append_sep (t rest : List Char) (ht : ∀ c ∈ t, isJsWhitespace c = false)
    (hr : startsWithWs rest = false) :
    splitWs (t ++ ' ' :: rest) = t :: splitWs rest := by
  induction t with
  | nil =>
    simp only [List.nil_append, splitWs]
    rw [if_pos (by decide), if_neg (by simp [hr])]
  | cons a ts ih =>
    have ha : isJsWhitespace a = false := ht a (List.mem_cons_self a ts)
    have ih' := ih (fun c hc => ht c (List.mem_cons_of_mem a hc))
    simp only [List.cons_append, splitWs, List.append_eq]
    rw [if_neg (by simp [ha]), ih']
    rfl

lemma joinSpace_eq (t : List Char) (ts : List (List Char)) :
    joinSpace (t :: ts) = t ++ (if ts.isEmpty then [] else ' ' :: joinSpace ts) := by
  cases ts <;> simp [joinSpace]

lemma mem_joinSpace (toks : List (List Char)) (c : Char) (h : c ∈ joinSpace toks) :
    c = ' ' ∨ ∃ t ∈ toks, c ∈ t := by
  induction toks with
  | nil => simp [joinSpace] at h
  | cons t ts ih =>
    cases ts with
    | nil =>
      right
      exact ⟨t, List.mem_cons_self t [], by simpa [joinSpace] using h⟩
    | cons t2 ts2 =>
      have h' : c ∈ t ++ ' ' :: joinSpace (t2 :: ts2) := h
      rcases List.mem_append.mp h' with h1 | h1
      · right
        exact ⟨t, List.mem_cons_self t _, h1⟩
      · rcases List.mem_cons.mp h1 with h2 | h2
        · left
          exact h2
        · rcases ih h2 with h3 | ⟨u, hu, hc⟩
          · left
            exact h3
          · right
            exact ⟨u, List.mem_cons_of_mem t hu, hc⟩

lemma joinSpace_reverse_head (toks : List (List Char)) (hne : toks ≠ [])
    (h1 : ∀ t ∈ toks, t ≠ []) (h2 : ∀ t ∈ toks, ∀ c ∈ t, isJsWhitespace c = false) :
    ∃ c l', (joinSpace toks).reverse = c :: l' ∧ isJsWhitespace c = false := by
  induction toks with
  | nil => exact absurd rfl hne
  | cons t ts ih =>
    cases ts with
    | nil =>
      have htne : t ≠ [] := h1 t (List.mem_cons_self t [])
      have hrne : t.reverse ≠ [] := by simpa using htne
      obtain ⟨c, l', hrev⟩ := List.exists_cons_of_ne_nil hrne
      refine ⟨c, l', by simpa [joinSpace] using hrev, ?_⟩
      have hcmem : c ∈ t.reverse := by
        rw [hrev]
        exact List.mem_cons_self c l'
      exact h2 t (List.mem_cons_self t []) c (List.mem_reverse.mp hcmem)
    | cons t2 ts2 =>
      obtain ⟨c, l', hrev, hc⟩ :=
        ih (by simp) (fun u hu => h1 u (List.mem_cons_of_mem t hu))
          (fun u hu => h2 u (List.mem_cons_of_mem t hu))
      refine ⟨c, l' ++ ' ' :: t.reverse, ?_, hc⟩
      show (t ++ ' ' :: joinSpace (t2 :: ts2)).reverse = c :: (l' ++ ' ' :: t.reverse)
      rw [List.reverse_append, List.reverse_cons, hrev]
      simp

lemma splitWs_joinSpace (toks : List (List Char)) (hne : toks ≠ [])
    (h1 : ∀ t ∈ toks, t ≠ []) (h2 : ∀ t ∈ toks, ∀ c ∈ t, isJsWhitespace c = false) :
    splitWs (joinSpace toks) = toks := by
  induction toks with
  | nil => exact absurd rfl hne
  | cons t ts ih =>
    cases ts with
    | nil =>
      show splitWs (joinSpace [t]) = [t]
      have hj : joinSpace [t] = t := rfl
      rw [hj]
      exact splitWs_all_non_ws t (h2 t (List.mem_cons_self t []))
    | cons t2 ts2 =>
      have hJ : joinSpace (t :: t2 :: ts2) = t ++ ' ' :: joinSpace (t2 :: ts2) := rfl
      rw [hJ]
      have ht2ne : t2 ≠ [] := h1 t2 (by simp)
      obtain ⟨c2, t2', ht2⟩ := List.exists_cons_of_ne_nil ht2ne
      have hstart : startsWithWs (joinSpace (t2 :: ts2)) = false := by
        rw [joinSpace_eq t2 ts2, ht2]
        show isJsWhitespace c2 = false
        exact h2 t2 (by simp) c2 (by simp [ht2])
      rw [splitWs_append_sep t _ (h2 t (List.mem_cons_self t _)) hstart]
      rw [ih (by simp) (fun u hu => h1 u (List.mem_cons_of_mem t hu))
        (fun u hu => h2 u (List.mem_cons_of_mem t hu))]

lemma jsTrim_subset (l : List Char) {c : Char} (h : c ∈ jsTrim l) : c ∈ l := by
  unfold jsTrim at h
  rw [List.mem_reverse] at h
  have h1 := (List.dropWhile_sublist _).subset h
  rw [List.mem_reverse] at h1
  exact (List.dropWhile_sublist _).subset h1

lemma tokens_props (x : Option (List Char)) :
    ∀ t ∈ cleanAndTokenize x, t ≠ [] ∧
      ∀ c ∈ t, isJsWhitespace c = false ∧ isControlChar c = false := by
  intro t ht
  cases x with
  | none => simp [cleanAndTokenize] at ht
  | some raw =>
    simp only [cleanAndTokenize] at ht
    by_cases hraw : raw = []
    · rw [if_pos hraw] at ht
      simp at ht
    · rw [if_neg hraw] at ht
      obtain ⟨hmem, hlen⟩ := List.mem_filter.mp ht
      constructor
      · intro h0
        subst h0
        simp at hlen
      · intro c hc
        have hp := splitWs_mem_props _ t hmem c hc
        refine ⟨hp.1, ?_⟩
        have hc2 : c ∈ raw.filter (fun c => !isControlChar c) := jsTrim_subset _ hp.2
        have := List.of_mem_filter hc2
        simpa using this

/-- C6: `cleanAndTokenize` of null/absent input and of the empty string is
the empty sequence; `"  hello   world  "` tokenizes to `["hello","world"]`;
and every produced token is non-empty and contains neither whitespace nor
the removed control characters. -/
theorem cleanAndTokenize_spec :
    cleanAndTokenize none = [] ∧
    cleanAndTokenize (some []) = [] ∧
    cleanAndTokenize (some "  hello   world  ".data) = ["hello".data, "world".data] ∧
    ∀ raw, ∀ t ∈ cleanAndTokenize raw, t ≠ [] ∧
      ∀ c ∈ t, isJsWhitespace c = false ∧ isControlChar c = false :=
  ⟨rfl, by decide, by decide, tokens_props⟩

/-- C6 witness: the token "hello" produced from `"  hello   world  "` is
non-empty and whitespace- and control-free. -/
theorem cleanAndTokenize_spec_witness :
    "hello".data ≠ [] ∧
    ∀ c ∈ "hello".data, isJsWhitespace c = false ∧ isControlChar c = false :=
  cleanAndTokenize_spec.2.2.2 (some "  hello   world  ".data) "hello".data (by decide)

/-- C7: `cleanAndTokenize` is idempotent on its output: tokenizing the
single-space join of the tokens of any input yields the same token
sequence. -/
theorem tokenize_idempotent (x : Option (List Char)) :
    cleanAndTokenize (some (joinSpace (cleanAndTokenize x))) = cleanAndTokenize x := by
  cases hx : cleanAndTokenize x with
  | nil =>
    show cleanAndTokenize (some (joinSpace [])) = []
    rfl
  | cons t ts =>
    have hprops := tokens_props x
    rw [hx] at hprops
    have hne : ∀ u ∈ t :: ts, u ≠ [] := fun u hu => (hprops u hu).1
    have hws : ∀ u ∈ t :: ts, ∀ c ∈ u, isJsWhitespace c = false :=
      fun u hu c hc => ((hprops u hu).2 c hc).1
    have hctrl : ∀ u ∈ t :: ts, ∀ c ∈ u, isControlChar c = false :=
      fun u hu c hc => ((hprops u hu).2 c hc).2
    obtain ⟨c0, t', ht⟩ := List.exists_cons_of_ne_nil (hne t (List.mem_cons_self t ts))
    have hJ1 : joinSpace (t :: ts)
        = c0 :: (t' ++ (if ts.isEmpty then [] else ' ' :: joinSpace ts)) := by
      rw [joinSpace_eq t ts, ht]
      simp
    have hJne : joinSpace (t :: ts) ≠ [] := by
      rw [hJ1]
      simp
    have hfilter : (joinSpace (t :: ts)).filter (fun c => !isControlChar c)
        = joinSpace (t :: ts) := by
      apply List.filter_eq_self.mpr
      intro a ha
      rcases mem_joinSpace _ a ha with h | ⟨u, hu, hc⟩
      · subst h
        decide
      · simp [hctrl u hu a hc]
    have htrim : jsTrim (joinSpace (t :: ts)) = joinSpace (t :: ts) := by
      have hd1 : (joinSpace (t :: ts)).dropWhile isJsWhitespace = joinSpace (t :: ts) := by
        rw [hJ1, List.dropWhile_cons]
        have hc0 : isJsWhitespace c0 = false :=
          hws t (List.mem_cons_self t ts) c0 (by simp [ht])
        simp [hc0]
      have hd2 : (joinSpace (t :: ts)).reverse.dropWhile isJsWhitespace
          = (joinSpace (t :: ts)).reverse := by
        obtain ⟨c1, l2, hrev, hc1⟩ := joinSpace_reverse_head (t :: ts) (by simp) hne hws
        rw [hrev, List.dropWhile_cons]
        simp [hc1]
      unfold jsTrim
      rw [hd1, hd2, List.reverse_reverse]
    have hsplit : splitWs (joinSpace (t :: ts)) = t :: ts :=
      splitWs_joinSpace _ (by simp) hne hws
    have hflen : (t :: ts).filter (fun u => u.length > 0) = t :: ts := by
      apply List.filter_eq_self.mpr
      intro u hu
      simpa using List.length_pos.mpr (hne u hu)
    show cleanAndTokenize (some (joinSpace (t :: ts))) = t :: ts
    simp only [cleanAndTokenize]
    rw [if_neg hJne, hfilter, htrim, hsplit, hflen]

end WarpReader
